import Mathlib

/-!
Shallow embedding of `polygon-zkevm-adaptor/src/random_client.rs`:
the operation model, random script generator, script persistence,
and the `Run` submission / confirmation-tracking engine.

Conventions of the embedding:
* `Duration` and `Instant` are modelled as natural numbers of nanoseconds
  (Rust `Duration` / `Instant` are nanosecond precision).
* `Address`, `U256` and transaction hashes (`H256`) are modelled as natural
  numbers; their exact bit widths play no role in any claim.
* Randomness and the external chain are modelled as explicit oracles:
  the generator consumes an explicit finite list of drawn operations, and
  execution receives the transaction hash and the current instant produced
  by the transport / clock as arguments.
* Fallible or possibly non-terminating steps return `Option`.
-/

namespace RandomClient

/-- Model of `ethers::abi::Address` (20-byte account id). -/
abbrev Address := Nat

/-- Model of `ethers::types::U256`. -/
abbrev U256 := Nat

/-- Model of `ethers::types::H256`, a transaction hash. -/
abbrev H256 := Nat

/-- Model of `std::time::Duration`, in nanoseconds. -/
abbrev Duration := Nat

/-- Model of `std::time::Instant`, nanoseconds since an arbitrary epoch. -/
abbrev Instant := Nat

/-- `struct Transfer { to: Address, amount: U256 }`. -/
structure Transfer where
  «to» : Address
  amount : U256
  deriving DecidableEq, Repr

/-- `enum Operation { Transfer(Transfer), Wait(Duration) }`. -/
inductive Operation where
  | Transfer (t : Transfer)
  | Wait (duration : Duration)
  deriving DecidableEq, Repr

/-- `enum Effect { PendingReceipt { transfer, hash, start } }`. -/
inductive Effect where
  | PendingReceipt (transfer : Transfer) (hash : H256) (start : Instant)
  deriving DecidableEq, Repr

/-- The Wait duration contributed by a single operation: `Wait(d)`
contributes `d`, a `Transfer` contributes nothing.  This is the quantity
added to `wait_time` inside `Operations::generate`. -/
def Operation.waitContribution : Operation → Duration
  | Operation.Wait d => d
  | Operation.Transfer _ => 0

/-- Sum of the Wait durations of a script (`wait_time` accumulated over
the whole list). -/
def waitSum : List Operation → Nat
  | [] => 0
  | op :: rest => op.waitContribution + waitSum rest

/-- The loop body of `Operations::generate`, with the stream of random
draws made explicit as a finite list.  `waited` is the accumulated
`wait_time`, `total` the `total_duration` argument.  Each step draws the
next operation, adds its Wait duration to `wait_time`, pushes the
operation, and stops when `wait_time > total_duration`.  `none` means the
supplied draws were exhausted before the stopping predicate fired (in the
source the loop would just keep drawing). -/
def genAux (total : Nat) : List Operation → Nat → Option (List Operation)
  | [], _ => none
  | op :: rest, waited =>
    let waited' := waited + op.waitContribution
    if waited' > total then
      some [op]
    else
      match genAux total rest waited' with
      | some ops => some (op :: ops)
      | none => none

/-- `Operations::generate(total_duration)`, with the random draws made
explicit: `generate draws total` runs the generation loop against the
given stream of draws. -/
def generate (draws : List Operation) (total : Nat) : Option (List Operation) :=
  genAux total draws 0

/-- Invariant of the generation loop: any script it returns is non-empty
and its Wait sum together with the already-accumulated wait strictly
exceeds the target. -/
theorem genAux_sound (total : Nat) :
    ∀ (draws : List Operation) (waited : Nat) (s : List Operation),
      genAux total draws waited = some s →
      s ≠ [] ∧ waited + waitSum s > total := by
  intro draws
  induction draws with
  | nil => intro waited s h; simp [genAux] at h
  | cons op rest ih =>
    intro waited s h
    simp only [genAux] at h
    by_cases hstop : waited + op.waitContribution > total
    · simp [hstop] at h
      subst h
      refine ⟨by simp, ?_⟩
      simpa [waitSum] using hstop
    · simp [hstop] at h
      rcases hrec : genAux total rest (waited + op.waitContribution) with _ | ops
      · rw [hrec] at h; exact absurd h (by simp)
      · rw [hrec] at h
        simp at h
        subst h
        obtain ⟨hne, hsum⟩ := ih (waited + op.waitContribution) ops hrec
        refine ⟨by simp, ?_⟩
        simp only [waitSum]
        omega

/-- Tightness invariant: whenever the loop is entered with accumulated
wait at most the target, the script it returns minus its last element has
Wait sum (together with the accumulated wait) at most the target. -/
theorem genAux_tight (total : Nat) :
    ∀ (draws : List Operation) (waited : Nat) (s : List Operation),
      waited ≤ total →
      genAux total draws waited = some s →
      waited + waitSum s.dropLast ≤ total := by
  intro draws
  induction draws with
  | nil => intro waited s _ h; simp [genAux] at h
  | cons op rest ih =>
    intro waited s hle h
    simp only [genAux] at h
    by_cases hstop : waited + op.waitContribution > total
    · simp [hstop] at h
      subst h
      simpa [waitSum] using hle
    · simp [hstop] at h
      rcases hrec : genAux total rest (waited + op.waitContribution) with _ | ops
      · rw [hrec] at h; exact absurd h (by simp)
      · rw [hrec] at h
        simp at h
        subst h
        have hne : ops ≠ [] := (genAux_sound total rest _ ops hrec).1
        have hrec' := ih (waited + op.waitContribution) ops (by omega) hrec
        rw [List.dropLast_cons_of_ne_nil hne]
        simp only [waitSum]
        omega

/-- Last-operation invariant: if the loop is entered with accumulated wait
at most the target, the last operation of any script it returns is a
`Wait` (only a `Wait` can push `wait_time` past the target). -/
theorem genAux_last_wait (total : Nat) :
    ∀ (draws : List Operation) (waited : Nat) (s : List Operation),
      waited ≤ total →
      genAux total draws waited = some s →
      ∃ d, s.getLast? = some (Operation.Wait d) := by
  intro draws
  induction draws with
  | nil => intro waited s _ h; simp [genAux] at h
  | cons op rest ih =>
    intro waited s hle h
    simp only [genAux] at h
    by_cases hstop : waited + op.waitContribution > total
    · simp [hstop] at h
      subst h
      cases op with
      | Transfer t =>
        exact absurd hstop (by simp [Operation.waitContribution]; omega)
      | Wait d => exact ⟨d, rfl⟩
    · simp [hstop] at h
      rcases hrec : genAux total rest (waited + op.waitContribution) with _ | ops
      · rw [hrec] at h; exact absurd h (by simp)
      · rw [hrec] at h
        simp at h
        subst h
        have hne : ops ≠ [] := (genAux_sound total rest _ ops hrec).1
        obtain ⟨d, hd⟩ := ih (waited + op.waitContribution) ops (by omega) hrec
        rcases ops with _ | ⟨c, cs⟩
        · exact absurd rfl hne
        · exact ⟨d, by rwa [List.getLast?_cons_cons]⟩

/-- Termination characterisation of the generation loop: entered with
accumulated wait at most the target, it stops within the supplied draws
iff some prefix of the draws accumulates enough Wait time to push the sum
strictly past the target. -/
theorem genAux_isSome_iff (total : Nat) :
    ∀ (draws : List Operation) (waited : Nat),
      waited ≤ total →
      ((genAux total draws waited).isSome ↔
        ∃ n, waited + waitSum (draws.take n) > total) := by
  intro draws
  induction draws with
  | nil =>
    intro waited hle
    simp only [genAux, Option.isSome_none]
    constructor
    · intro h; exact absurd h (by simp)
    · rintro ⟨n, hn⟩
      simp [waitSum] at hn
      omega
  | cons op rest ih =>
    intro waited hle
    simp only [genAux]
    by_cases hstop : waited + op.waitContribution > total
    · simp only [hstop, if_pos]
      constructor
      · intro _
        refine ⟨1, ?_⟩
        simp [waitSum]
        omega
      · intro _; simp
    · simp only [hstop, if_neg, not_false_iff]
      have hle' : waited + op.waitContribution ≤ total := by omega
      have step :
          (match genAux total rest (waited + op.waitContribution) with
            | some ops => some (op :: ops)
            | none => none).isSome
            = (genAux total rest (waited + op.waitContribution)).isSome := by
        rcases genAux total rest (waited + op.waitContribution) with _ | ops <;> simp
      rw [step, ih (waited + op.waitContribution) hle']
      constructor
      · rintro ⟨m, hm⟩
        refine ⟨m + 1, ?_⟩
        simp only [List.take_succ_cons, waitSum]
        omega
      · rintro ⟨n, hn⟩
        cases n with
        | zero => simp [waitSum] at hn; omega
        | succ m =>
          refine ⟨m, ?_⟩
          simp only [List.take_succ_cons, waitSum] at hn
          omega

/-! ### Script persistence (`Operations::save` / `Operations::load`)

The source serializes the inner `Vec<Operation>` with `serde_json`
(derived `Serialize`/`Deserialize` implementations) and writes the
resulting string to a file; `load` reads the file back and parses it.
We model the persisted file by the JSON value tree it contains: the
string rendering and parsing layer belongs to the external `serde_json`
library (lossless for the value tree), and the scalar encodings of
`Address`/`U256` belong to the external `ethers` serializers (modelled
as an injective numeric leaf). The structure — derived struct objects,
externally tagged enum variants, `Duration` as `{secs, nanos}`, the
`Vec` as an array — follows the derive semantics for the types declared
in this file. -/

/-- A JSON value tree, the model of the persisted file content. -/
inductive Json where
  | num (n : Nat)
  | str (s : String)
  | arr (elems : List Json)
  | obj (fields : List (String × Json))

/-- Derived serialization of `Transfer`: a two-field object. -/
def Transfer.toJson (t : Transfer) : Json :=
  Json.obj [("to", Json.num t.to), ("amount", Json.num t.amount)]

/-- Derived deserialization of `Transfer`. -/
def Transfer.fromJson : Json → Option Transfer
  | Json.obj [("to", Json.num a), ("amount", Json.num m)] => some ⟨a, m⟩
  | _ => none

/-- Serialization of `std::time::Duration`: `{secs, nanos}`. -/
def durationToJson (d : Duration) : Json :=
  Json.obj [("secs", Json.num (d / 1000000000)), ("nanos", Json.num (d % 1000000000))]

/-- Deserialization of `std::time::Duration` from `{secs, nanos}`. -/
def durationFromJson : Json → Option Duration
  | Json.obj [("secs", Json.num s), ("nanos", Json.num n)] => some (s * 1000000000 + n)
  | _ => none

/-- Derived serialization of `Operation`: externally tagged enum. -/
def Operation.toJson : Operation → Json
  | Operation.Transfer t => Json.obj [("Transfer", t.toJson)]
  | Operation.Wait d => Json.obj [("Wait", durationToJson d)]

/-- Derived deserialization of `Operation`. -/
def Operation.fromJson : Json → Option Operation
  | Json.obj [("Transfer", j)] => (Transfer.fromJson j).map Operation.Transfer
  | Json.obj [("Wait", j)] => (durationFromJson j).map Operation.Wait
  | _ => none

/-- `pub struct Operations(pub(crate) Vec<Operation>);` -/
structure Operations where
  ops : List Operation
  deriving DecidableEq, Repr

/-- Element-wise deserialization of a JSON array of operations (the
derived `Vec<Operation>` deserializer; any malformed element fails the
whole parse, as `serde_json::from_str(...).unwrap()` would). -/
def decodeOpList : List Json → Option (List Operation)
  | [] => some []
  | j :: rest =>
    match Operation.fromJson j, decodeOpList rest with
    | some op, some ops => some (op :: ops)
    | _, _ => none

/-- `Operations::save`: the JSON value written to the file
(`serde_json::to_string_pretty(&self.0)`). -/
def Operations.save (o : Operations) : Json :=
  Json.arr (o.ops.map Operation.toJson)

/-- `Operations::load`: parse the file content back into `Operations`;
`none` models the `unwrap` panic on malformed data. -/
def Operations.load (j : Json) : Option Operations :=
  match j with
  | Json.arr elems => (decodeOpList elems).map Operations.mk
  | _ => none

theorem transfer_fromJson_toJson (t : Transfer) :
    Transfer.fromJson t.toJson = some t := rfl

theorem durationFromJson_toJson (d : Duration) :
    durationFromJson (durationToJson d) = some d := by
  simp only [durationToJson, durationFromJson]
  exact congrArg some (Nat.div_add_mod' d 1000000000)

theorem operation_fromJson_toJson (op : Operation) :
    Operation.fromJson op.toJson = some op := by
  cases op with
  | Transfer t =>
    simp [Operation.toJson, Operation.fromJson, transfer_fromJson_toJson]
  | Wait d =>
    simp [Operation.toJson, Operation.fromJson, durationFromJson_toJson]

theorem decodeOpList_map_toJson (l : List Operation) :
    decodeOpList (l.map Operation.toJson) = some l := by
  induction l with
  | nil => rfl
  | cons op rest ih =>
    simp only [List.map_cons, decodeOpList, operation_fromJson_toJson, ih]

/-! ### The Run: shared state, submission, and the confirmation tracker

The external transport and clock are modelled by explicit oracles: each
transaction submission receives the hash the transport returns and the
instant `Instant::now()` reads, and each receipt query receives the
transport's answer via a `receiptFound` predicate.  The
`async_std::sync::RwLock` around the shared `State` matters only at one
point: `reinit_nonce_manager` acquires the write lock itself, so a call
made while the calling task already holds a write guard never completes
(the lock is not reentrant).  That lock context is passed explicitly as
the `held` flag. -/

/-- The immutable signing identity
(`SignerMiddleware<Provider<Http>, LocalWallet>`): an opaque key identity
together with its account address (`signer.address()`). -/
structure Signer where
  key : Nat
  address : Address
  deriving DecidableEq, Repr

/-- The sequencing wrapper `NonceManagerMiddleware`, as constructed by
`NonceManagerMiddleware::new(signer, address)`: the wrapped signer and
the account whose nonces it manages. A freshly built wrapper re-syncs to
chain state; only its construction data is observable here. -/
structure NonceManagerMiddleware where
  signer : Signer
  address : Address
  deriving DecidableEq, Repr

/-- `NonceManagerMiddleware::new`. -/
def NonceManagerMiddleware.new (s : Signer) (a : Address) : NonceManagerMiddleware :=
  ⟨s, a⟩

/-- `struct State { pending, submit_operations_done, client }`. The
`VecDeque` front is the list head. -/
structure State where
  pending : List Effect
  submit_operations_done : Bool
  client : NonceManagerMiddleware
  deriving DecidableEq, Repr

/-- `struct Run { operations, signer, state }`, without the shared
mutable `state` (threaded explicitly through the operations below). -/
structure Run where
  operations : Operations
  signer : Signer
  deriving DecidableEq, Repr

/-- The `State` installed by `Run::new`: empty queue,
`submit_operations_done = false` (the `Default` for `bool`), and a
nonce-managed client built from the signer. -/
def initState (signer : Signer) : State :=
  { pending := []
    submit_operations_done := false
    client := NonceManagerMiddleware.new signer signer.address }

/-- `Operation::execute(client)`. A `Transfer` submits a transaction
(the transport's hash and the current instant are the oracle inputs) and
yields a `PendingReceipt`; a `Wait` sleeps and yields nothing. -/
def Operation.execute (op : Operation) (hash : H256) (now : Instant) : Option Effect :=
  match op with
  | Operation.Transfer t => some (Effect.PendingReceipt t hash now)
  | Operation.Wait _ => none

/-- One iteration of the `submit_operations` loop body: execute the
operation and, in the `Transfer` branch, push the resulting effect (if
any) to the back of `pending`. -/
def submitStep (hash : H256) (now : Instant) (s : State) (op : Operation) : State :=
  match op with
  | Operation.Transfer _ =>
    match op.execute hash now with
    | some e => { s with pending := s.pending ++ [e] }
    | none => s
  | Operation.Wait _ =>
    -- the Wait branch executes the operation (a sleep) and discards the
    -- (absent) effect; the state is untouched
    s

/-- The `submit_operations` loop over the remaining operations; `k` is
the index of the next operation, `env k` the transport/clock oracle for
the `k`-th execution. -/
def submitFold (env : Nat → H256 × Instant) : Nat → State → List Operation → State
  | _, s, [] => s
  | k, s, op :: rest => submitFold env (k + 1) (submitStep (env k).1 (env k).2 s op) rest

/-- `Run::submit_operations`: run the loop over the whole script, then
set `submit_operations_done = true`. -/
def submit_operations (env : Nat → H256 × Instant) (ops : List Operation) (s : State) : State :=
  let s' := submitFold env 0 s ops
  { s' with submit_operations_done := true }

/-- Every state the submission loop passes through (before the final
flag write), in order: the state before each iteration and the state
after the last one. -/
def submitStates (env : Nat → H256 × Instant) : Nat → State → List Operation → List State
  | _, s, [] => [s]
  | k, s, op :: rest => s :: submitStates env (k + 1) (submitStep (env k).1 (env k).2 s op) rest

/-- The effects `submit_operations` appends to `pending`, in submission
order: one per operation whose execution yields an effect. -/
def submitEffects (env : Nat → H256 × Instant) : Nat → List Operation → List Effect
  | _, [] => []
  | k, op :: rest =>
    match op.execute (env k).1 (env k).2 with
    | some e => e :: submitEffects env (k + 1) rest
    | none => submitEffects env (k + 1) rest

/-- `Run::reinit_nonce_manager`: acquires the state write lock and
installs a fresh `NonceManagerMiddleware` built from the immutable
signer. `held` is whether the calling task already holds a write guard
on the state lock: `async_std::sync::RwLock` is not reentrant, so the
acquisition then never completes (`none`). -/
def reinit_nonce_manager (signer : Signer) (held : Bool) (s : State) : Option State :=
  if held then none
  else some { s with client := NonceManagerMiddleware.new signer signer.address }

/-- The receipt timeout, `Duration::from_secs(90)` in nanoseconds. -/
def timeoutNanos : Nat := 90 * 1000000000

/-- The TimedOut recovery of `wait_for_effects`: take the write lock and
keep it, drain every queued effect, then call `reinit_nonce_manager` —
which tries to take the same write lock again while it is still held. -/
def recovery (signer : Signer) (s : State) : Option State :=
  let drained := { s with pending := ([] : List Effect) }
  reinit_nonce_manager signer true drained

/-- One cycle of the `wait_for_effects` loop body: pop the head effect
(if any); on a found receipt drop it; past the timeout run recovery;
otherwise re-enqueue at the tail (then sleep). `receiptFound` is the
transport's answer to `get_transaction_receipt`, `now` the instant at
which `start.elapsed()` is read. `none` means the cycle never finishes. -/
def wait_for_effects_cycle (signer : Signer) (receiptFound : H256 → Bool) (now : Instant)
    (s : State) : Option State :=
  match s.pending with
  | [] =>
    -- no pending effects: sleep 5s, state unchanged
    some s
  | e :: rest =>
    match e with
    | Effect.PendingReceipt _ hash start =>
      if receiptFound hash then
        some { s with pending := rest }
      else if now - start > timeoutNanos then
        recovery signer { s with pending := rest }
      else
        some { s with pending := rest ++ [e] }

/-- The tracker's stopping condition, read after each cycle:
`state.submit_operations_done && state.pending.is_empty()`. -/
def loopDone (s : State) : Bool :=
  s.submit_operations_done && s.pending.isEmpty

/-- `Run::wait_for_effects`, fuelled: run up to `fuel` cycles, breaking
as soon as the post-cycle check `loopDone` holds. `k` numbers the cycles
so each can see its own oracle values; `none` means the loop has not
stopped within `fuel` cycles (or a cycle never finished). -/
def wait_for_effects (signer : Signer) (receiptFound : Nat → H256 → Bool)
    (now : Nat → Instant) : Nat → Nat → State → Option State
  | 0, _, _ => none
  | fuel + 1, k, s =>
    match wait_for_effects_cycle signer (receiptFound k) (now k) s with
    | none => none
    | some s' =>
      if loopDone s' then some s'
      else wait_for_effects signer receiptFound now fuel (k + 1) s'

/-! ### Supporting lemmas -/

theorem submitFold_pending (env : Nat → H256 × Instant) :
    ∀ (ops : List Operation) (k : Nat) (s : State),
      (submitFold env k s ops).pending = s.pending ++ submitEffects env k ops := by
  intro ops
  induction ops with
  | nil => intro k s; simp [submitFold, submitEffects]
  | cons op rest ih =>
    intro k s
    simp only [submitFold, submitEffects]
    cases op with
    | Transfer t =>
      simp only [submitStep, Operation.execute, ih]
      simp
    | Wait d =>
      simp only [submitStep, Operation.execute, ih]

theorem submitFold_done (env : Nat → H256 × Instant) :
    ∀ (ops : List Operation) (k : Nat) (s : State),
      (submitFold env k s ops).submit_operations_done = s.submit_operations_done := by
  intro ops
  induction ops with
  | nil => intro k s; rfl
  | cons op rest ih =>
    intro k s
    simp only [submitFold, ih]
    cases op with
    | Transfer t => simp [submitStep, Operation.execute]
    | Wait d => simp [submitStep]

theorem submitStates_done (env : Nat → H256 × Instant) :
    ∀ (ops : List Operation) (k : Nat) (s : State),
      ∀ s' ∈ submitStates env k s ops,
        s'.submit_operations_done = s.submit_operations_done := by
  intro ops
  induction ops with
  | nil =>
    intro k s s' hmem
    simp [submitStates] at hmem
    subst hmem; rfl
  | cons op rest ih =>
    intro k s s' hmem
    simp only [submitStates, List.mem_cons] at hmem
    rcases hmem with rfl | hmem
    · rfl
    · have hstep :
          (submitStep (env k).1 (env k).2 s op).submit_operations_done
            = s.submit_operations_done := by
        cases op with
        | Transfer t => simp [submitStep, Operation.execute]
        | Wait d => simp [submitStep]
      rw [ih (k + 1) _ s' hmem, hstep]

theorem cycle_preserves_done (signer : Signer) (rf : H256 → Bool) (now : Instant)
    (s s' : State) (h : wait_for_effects_cycle signer rf now s = some s') :
    s'.submit_operations_done = s.submit_operations_done := by
  rcases s with ⟨pending, done, client⟩
  rcases pending with _ | ⟨e, rest⟩
  · simp only [wait_for_effects_cycle] at h
    cases h; rfl
  · rcases e with ⟨t, hash, start⟩
    simp only [wait_for_effects_cycle] at h
    by_cases hrf : rf hash = true
    · simp [hrf] at h; cases h; rfl
    · simp only [hrf] at h
      by_cases htime : now - start > timeoutNanos
      · simp [htime, recovery, reinit_nonce_manager] at h
      · simp [htime] at h
        rcases h with ⟨rfl⟩
        rfl

theorem cycle_pending_mem (signer : Signer) (rf : H256 → Bool) (now : Instant)
    (s s' : State) (h : wait_for_effects_cycle signer rf now s = some s') :
    ∀ e ∈ s'.pending, e ∈ s.pending := by
  rcases s with ⟨pending, done, client⟩
  rcases pending with _ | ⟨e0, rest⟩
  · simp only [wait_for_effects_cycle] at h
    cases h; intro e he; exact he
  · rcases e0 with ⟨t, hash, start⟩
    simp only [wait_for_effects_cycle] at h
    by_cases hrf : rf hash = true
    · simp [hrf] at h
      cases h
      intro e he
      exact List.mem_cons_of_mem _ he
    · simp only [hrf] at h
      by_cases htime : now - start > timeoutNanos
      · simp [htime, recovery, reinit_nonce_manager] at h
      · simp [htime] at h
        rcases h with ⟨rfl⟩
        intro e he
        simp only [List.mem_append, List.mem_singleton] at he
        rcases he with he | rfl
        · exact List.mem_cons_of_mem _ he
        · exact List.mem_cons_self _ _

theorem submitEffects_mem (env : Nat → H256 × Instant) :
    ∀ (ops : List Operation) (k : Nat) (e : Effect),
      e ∈ submitEffects env k ops →
      ∃ t, Operation.Transfer t ∈ ops ∧ ∃ h n, e = Effect.PendingReceipt t h n := by
  intro ops
  induction ops with
  | nil => intro k e he; simp [submitEffects] at he
  | cons op rest ih =>
    intro k e he
    cases op with
    | Transfer t =>
      simp only [submitEffects, Operation.execute, List.mem_cons] at he
      rcases he with rfl | he
      · exact ⟨t, List.mem_cons_self _ _, (env k).1, (env k).2, rfl⟩
      · obtain ⟨t', ht', hw⟩ := ih (k + 1) e he
        exact ⟨t', List.mem_cons_of_mem _ ht', hw⟩
    | Wait d =>
      simp only [submitEffects, Operation.execute] at he
      obtain ⟨t', ht', hw⟩ := ih (k + 1) e he
      exact ⟨t', List.mem_cons_of_mem _ ht', hw⟩

theorem waitSum_eq_zero (l : List Operation)
    (h : ∀ op ∈ l, op.waitContribution = 0) : waitSum l = 0 := by
  induction l with
  | nil => rfl
  | cons op rest ih =>
    simp only [waitSum]
    rw [h op (List.mem_cons_self _ _), ih fun o ho => h o (List.mem_cons_of_mem _ ho)]

theorem loopDone_eq_true (s : State) (h : loopDone s = true) :
    s.submit_operations_done = true ∧ s.pending = [] := by
  simp only [loopDone, Bool.and_eq_true, List.isEmpty_iff] at h
  exact h

theorem wait_for_effects_stops_done (signer : Signer) (rf : Nat → H256 → Bool)
    (now : Nat → Instant) :
    ∀ (fuel k : Nat) (s s' : State),
      wait_for_effects signer rf now fuel k s = some s' →
      s'.submit_operations_done = true ∧ s'.pending = [] := by
  intro fuel
  induction fuel with
  | zero => intro k s s' h; simp [wait_for_effects] at h
  | succ n ih =>
    intro k s s' h
    simp only [wait_for_effects] at h
    rcases hcyc : wait_for_effects_cycle signer (rf k) (now k) s with _ | s₁
    · rw [hcyc] at h; exact absurd h (by simp)
    · rw [hcyc] at h
      by_cases hdone : loopDone s₁ = true
      · simp [hdone] at h
        subst h
        exact loopDone_eq_true s₁ hdone
      · simp [hdone] at h
        exact ih (k + 1) s₁ s' h

/-! ### Claim theorems -/

/-- C1: a tracker cycle that pops a pending Effect drops it from the
queue when the receipt query finds a receipt, and re-enqueues it at the
tail when no receipt is found within 90 seconds of `submittedAt`; but
when no receipt is found past 90 seconds the cycle never produces a
resulting state at all: the recovery drains the queue while holding the
state write lock and then deadlocks re-acquiring that lock inside
`reinit_nonce_manager`, so the claimed post-recovery state (empty queue,
freshly constructed client) is never reached. -/
theorem tracker_cycle_branches (signer : Signer) (rf : H256 → Bool) (now : Instant)
    (t : Transfer) (hash : H256) (start : Instant) (rest : List Effect)
    (done : Bool) (client : NonceManagerMiddleware) :
    (rf hash = true →
      wait_for_effects_cycle signer rf now
          ⟨Effect.PendingReceipt t hash start :: rest, done, client⟩
        = some ⟨rest, done, client⟩)
  ∧ (rf hash = false → now - start ≤ timeoutNanos →
      wait_for_effects_cycle signer rf now
          ⟨Effect.PendingReceipt t hash start :: rest, done, client⟩
        = some ⟨rest ++ [Effect.PendingReceipt t hash start], done, client⟩)
  ∧ (rf hash = false → now - start > timeoutNanos →
      wait_for_effects_cycle signer rf now
          ⟨Effect.PendingReceipt t hash start :: rest, done, client⟩
        = none) := by
  refine ⟨?_, ?_, ?_⟩
  · intro hrf
    simp [wait_for_effects_cycle, hrf]
  · intro hrf htime
    have hnot : ¬ now - start > timeoutNanos := Nat.not_lt.mpr htime
    simp [wait_for_effects_cycle, hrf, hnot]
  · intro hrf htime
    simp [wait_for_effects_cycle, hrf, htime, recovery, reinit_nonce_manager]

/-- Witness for C1: a concrete timed-out effect whose tracker cycle never
completes. -/
theorem tracker_cycle_branches_witness :
    wait_for_effects_cycle ⟨0, 0⟩ (fun _ => false) (100 * 1000000000)
        ⟨[Effect.PendingReceipt ⟨0, 0⟩ 0 0], false, ⟨⟨0, 0⟩, 0⟩⟩ = none :=
  (tracker_cycle_branches ⟨0, 0⟩ (fun _ => false) (100 * 1000000000)
      ⟨0, 0⟩ 0 0 [] false ⟨⟨0, 0⟩, 0⟩).2.2 rfl (by decide)

/-- C2: the tracker loop stops exactly at a post-cycle check where
`submit_operations_done` holds and `pending` is empty: any run of the
loop that stops does so in such a state, a cycle ending in such a state
stops the loop immediately, and a cycle ending in any other state makes
the loop continue. -/
theorem tracker_stops_iff_done_and_empty (signer : Signer)
    (rf : Nat → H256 → Bool) (now : Nat → Instant) :
    (∀ fuel k s s', wait_for_effects signer rf now fuel k s = some s' →
        s'.submit_operations_done = true ∧ s'.pending = [])
  ∧ (∀ k s s', wait_for_effects_cycle signer (rf k) (now k) s = some s' →
        loopDone s' = true →
        ∀ fuel, wait_for_effects signer rf now (fuel + 1) k s = some s')
  ∧ (∀ fuel k s s', wait_for_effects_cycle signer (rf k) (now k) s = some s' →
        loopDone s' = false →
        wait_for_effects signer rf now (fuel + 1) k s
          = wait_for_effects signer rf now fuel (k + 1) s') := by
  refine ⟨wait_for_effects_stops_done signer rf now, ?_, ?_⟩
  · intro k s s' hcyc hdone fuel
    simp [wait_for_effects, hcyc, hdone]
  · intro fuel k s s' hcyc hdone
    simp [wait_for_effects, hcyc, hdone]

/-- Witness for C2: with submission done and the queue empty, one cycle
stops the tracker. -/
theorem tracker_stops_iff_done_and_empty_witness :
    wait_for_effects ⟨0, 0⟩ (fun _ _ => true) (fun _ => 0) 1 0
        ⟨[], true, ⟨⟨0, 0⟩, 0⟩⟩ = some ⟨[], true, ⟨⟨0, 0⟩, 0⟩⟩ :=
  (tracker_stops_iff_done_and_empty ⟨0, 0⟩ (fun _ _ => true) (fun _ => 0)).2.1 0
    ⟨[], true, ⟨⟨0, 0⟩, 0⟩⟩ ⟨[], true, ⟨⟨0, 0⟩, 0⟩⟩ rfl rfl 0

/-- C3: the recovery sequence entered by the TimedOut branch never
completes: it drains the queue while keeping the state write lock and
then calls `reinit_nonce_manager`, which acquires the same
(non-reentrant) write lock again, so the client replacement is never
installed. -/
theorem recovery_never_completes (signer : Signer) (s : State) :
    recovery signer s = none := rfl

/-- C4: every script the generation loop returns is non-empty and its
Wait durations sum to strictly more than the target duration. -/
theorem generate_nonempty_and_exceeds (draws : List Operation) (d : Nat)
    (s : List Operation) (h : generate draws d = some s) :
    s ≠ [] ∧ waitSum s > d := by
  have hs := genAux_sound d draws 0 s h
  exact ⟨hs.1, by have := hs.2; omega⟩

/-- Witness for C4 at a concrete draw stream and target 0. -/
theorem generate_nonempty_and_exceeds_witness :
    generate [Operation.Wait 1] 0 = some [Operation.Wait 1]
      ∧ ([Operation.Wait 1] ≠ [] ∧ waitSum [Operation.Wait 1] > 0) :=
  ⟨rfl, generate_nonempty_and_exceeds [Operation.Wait 1] 0 [Operation.Wait 1] rfl⟩

/-- C5: removing the last operation of a generated script leaves a Wait
sum of at most the target (tightness of the stopping rule), except
possibly when the last operation is a Transfer. -/
theorem generate_dropLast_tight (draws : List Operation) (d : Nat)
    (s : List Operation) (h : generate draws d = some s) :
    waitSum s.dropLast ≤ d ∨ ∃ t, s.getLast? = some (Operation.Transfer t) := by
  left
  have := genAux_tight d draws 0 s (Nat.zero_le d) h
  omega

/-- Witness for C5 at a concrete draw stream and target 0. -/
theorem generate_dropLast_tight_witness :
    generate [Operation.Wait 1] 0 = some [Operation.Wait 1]
      ∧ (waitSum (List.dropLast [Operation.Wait 1]) ≤ 0
          ∨ ∃ t, List.getLast? [Operation.Wait 1] = some (Operation.Transfer t)) :=
  ⟨rfl, generate_dropLast_tight [Operation.Wait 1] 0 [Operation.Wait 1] rfl⟩

/-- C6: saving any script and loading it back returns the same script:
`load(save(s)) = s` (with `none` modelling the fatal parse failure that
cannot happen on a saved script). -/
theorem save_load_roundtrip (o : Operations) :
    Operations.load (Operations.save o) = some o := by
  rcases o with ⟨l⟩
  simp [Operations.save, Operations.load, decodeOpList_map_toJson]

/-- C7: `submit_operations` appends to `pending` exactly the effects of
executing the script in order, once; every state the submission loop
passes through still carries the initial flag value; the flag is `true`
in the final state (set once, after all operations); the initial state's
flag is `false`; and no tracker cycle ever changes the flag. -/
theorem submit_operations_spec (signer : Signer) (env : Nat → H256 × Instant)
    (ops : List Operation) (s : State) :
    (submit_operations env ops s).pending = s.pending ++ submitEffects env 0 ops
  ∧ (submit_operations env ops s).submit_operations_done = true
  ∧ (∀ s' ∈ submitStates env 0 s ops,
      s'.submit_operations_done = s.submit_operations_done)
  ∧ (initState signer).submit_operations_done = false
  ∧ (∀ (rf : H256 → Bool) (now : Instant) (u u' : State),
      wait_for_effects_cycle signer rf now u = some u' →
      u'.submit_operations_done = u.submit_operations_done) := by
  refine ⟨?_, rfl, submitStates_done env ops 0 s, rfl,
    fun rf now u u' h => cycle_preserves_done signer rf now u u' h⟩
  simp [submit_operations, submitFold_pending]

/-- Witness for C7: a concrete receipt-found cycle leaves the flag
untouched. -/
theorem submit_operations_spec_witness :
    wait_for_effects_cycle ⟨0, 0⟩ (fun _ => true) 0
        ⟨[Effect.PendingReceipt ⟨5, 7⟩ 0 0], true, ⟨⟨0, 0⟩, 0⟩⟩
      = some ⟨[], true, ⟨⟨0, 0⟩, 0⟩⟩
  ∧ (⟨[], true, ⟨⟨0, 0⟩, 0⟩⟩ : State).submit_operations_done
      = (⟨[Effect.PendingReceipt ⟨5, 7⟩ 0 0], true, ⟨⟨0, 0⟩, 0⟩⟩ : State).submit_operations_done :=
  ⟨rfl,
   (submit_operations_spec ⟨0, 0⟩ (fun _ => (0, 0)) [] ⟨[], true, ⟨⟨0, 0⟩, 0⟩⟩).2.2.2.2
     (fun _ => true) 0 _ _ rfl⟩

/-- C8: executing a Wait produces no Effect, executing a Transfer
produces the `PendingReceipt` carrying that transfer, the transaction
hash and the submission instant, the effects enqueued by the submission
loop all come from Transfers of the script, and a tracker cycle never
enqueues an effect that was not already pending — so the queue only ever
holds receipts of submitted Transfers. -/
theorem pending_only_transfer_receipts :
    (∀ (d : Duration) (h : H256) (n : Instant),
        Operation.execute (Operation.Wait d) h n = none)
  ∧ (∀ (t : Transfer) (h : H256) (n : Instant),
        Operation.execute (Operation.Transfer t) h n
          = some (Effect.PendingReceipt t h n))
  ∧ (∀ (env : Nat → H256 × Instant) (ops : List Operation) (k : Nat) (e : Effect),
        e ∈ submitEffects env k ops →
        ∃ t, Operation.Transfer t ∈ ops ∧ ∃ h n, e = Effect.PendingReceipt t h n)
  ∧ (∀ (signer : Signer) (rf : H256 → Bool) (now : Instant) (s s' : State),
        wait_for_effects_cycle signer rf now s = some s' →
        ∀ e ∈ s'.pending, e ∈ s.pending) :=
  ⟨fun _ _ _ => rfl, fun _ _ _ => rfl,
   fun env ops k e he => submitEffects_mem env ops k e he,
   fun signer rf now s s' h => cycle_pending_mem signer rf now s s' h⟩

/-- Witness for C8: the one effect produced by a one-Transfer script is
the pending receipt of that Transfer. -/
theorem pending_only_transfer_receipts_witness :
    Effect.PendingReceipt ⟨1, 2⟩ 3 4
        ∈ submitEffects (fun _ => (3, 4)) 0 [Operation.Transfer ⟨1, 2⟩]
  ∧ ∃ t, Operation.Transfer t ∈ [Operation.Transfer ⟨1, 2⟩]
        ∧ ∃ h n, Effect.PendingReceipt ⟨1, 2⟩ 3 4 = Effect.PendingReceipt t h n :=
  ⟨by decide,
   pending_only_transfer_receipts.2.2.1 (fun _ => (3, 4))
     [Operation.Transfer ⟨1, 2⟩] 0 _ (by decide)⟩

/-- C9: the last operation of every generated script is a Wait: only a
Wait draw can push the accumulated Wait sum strictly past the target,
and the stopping check runs right after each push. -/
theorem generate_last_is_wait (draws : List Operation) (d : Nat)
    (s : List Operation) (h : generate draws d = some s) :
    ∃ w, s.getLast? = some (Operation.Wait w) :=
  genAux_last_wait d draws 0 s (Nat.zero_le d) h

/-- Witness for C9 at a concrete draw stream. -/
theorem generate_last_is_wait_witness :
    generate [Operation.Transfer ⟨0, 0⟩, Operation.Wait 2] 1
        = some [Operation.Transfer ⟨0, 0⟩, Operation.Wait 2]
      ∧ ∃ w, List.getLast? [Operation.Transfer ⟨0, 0⟩, Operation.Wait 2]
          = some (Operation.Wait w) :=
  ⟨rfl, generate_last_is_wait [Operation.Transfer ⟨0, 0⟩, Operation.Wait 2] 1
    [Operation.Transfer ⟨0, 0⟩, Operation.Wait 2] rfl⟩

/-- C10: the generation loop stops within a stream of draws iff some
prefix of the draws has Wait sum strictly exceeding the target; on draws
contributing no Wait time (only Transfers or zero-duration Waits) it
never stops — termination depends on the draw stream, not only on the
target duration. -/
theorem generate_halts_iff_waits_exceed (draws : List Operation) (d : Nat) :
    ((generate draws d).isSome ↔ ∃ n, waitSum (List.take n draws) > d)
  ∧ ((∀ op ∈ draws, op.waitContribution = 0) → generate draws d = none) := by
  have hiff := genAux_isSome_iff d draws 0 (Nat.zero_le d)
  constructor
  · simpa [generate] using hiff
  · intro hz
    rw [← Option.not_isSome_iff_eq_none]
    simp only [generate]
    rw [hiff]
    rintro ⟨n, hn⟩
    have h0 : waitSum (List.take n draws) = 0 :=
      waitSum_eq_zero _ fun op hop => hz op (List.take_subset n draws hop)
    omega

/-- Witness for C10: a Transfer-only draw stream never lets the loop
stop. -/
theorem generate_halts_iff_waits_exceed_witness :
    (∀ op ∈ [Operation.Transfer ⟨0, 0⟩], op.waitContribution = 0)
  ∧ generate [Operation.Transfer ⟨0, 0⟩] 5 = none :=
  ⟨by decide, (generate_halts_iff_waits_exceed [Operation.Transfer ⟨0, 0⟩] 5).2 (by decide)⟩

end RandomClient
